import Mathlib

/-!
Shallow embedding of `cim::sorted_vector<T>` from `src/sorted_vector.h`,
instantiated at `T = Int` (a totally ordered element type with the operators
`==`, `<`, `>` the source requires).

Modelling conventions:
* `size_t` values are natural numbers; the literal `(size_t)-1`, used by the
  source both as the "not found" sentinel and as the default `end_pos`
  argument, is the constant `NF = 2^64 - 1`.  Subtracting 1 from a `size_t`
  that may be 0 wraps to `NF`; this is `wdec`.
* Reading `_storage[i]` is `idx s i = s.getD i 0`; an out-of-range read
  (undefined behaviour in C++) yields the default value 0.
* Each `while` loop of the source becomes a structurally recursive function.
  Loops whose index can only march monotonically through a bounded range
  recurse on that range; the binary-search loops and the backward equal-run
  walk, whose index can wrap past 0, take an explicit fuel argument that is
  an upper bound on the iteration count of every execution the source
  completes; fuel exhaustion (returning `NF`, or the current fall-back
  value) models only executions on which the C++ loop never exits or reads
  out of range.
* The preprocessor configuration is the shipped default:
  `CIM_SORTED_VECTOR_AUTOREPAIR` defined,
  `CIM_SORTED_VECTOR_IGNORE_POSSIBLY_CORRUPTED` and
  `CIM_SORTED_VECTOR_USE_MEMMOVE` undefined.
-/

namespace cim

/-- The value `(size_t)-1` on a 64-bit platform: the not-found sentinel and
the default `end_pos` of every search method. -/
def NF : Nat := 2 ^ 64 - 1

/-- Decrement of a `size_t`: `n - 1`, wrapping to `(size_t)-1` at zero. -/
def wdec : Nat → Nat
  | 0 => NF
  | n + 1 => n

/-- Reading `_storage[i]`; out-of-range reads (undefined behaviour in the
source) produce the default element 0. -/
def idx (s : List Int) (i : Nat) : Int :=
  s.getD i 0

/-- Loop of `find` (lines 813-832): ternary-probe binary search on `[f, l]`.
`m` is recomputed as `(f + l) / 2` exactly where the source assigns it.  The
source guards `m == 0` before `l = m - 1`, so that subtraction never wraps.
The fuel `l + 2 - f` passed by `find` bounds the iteration count: the
interval length shrinks at every step. -/
def findLoop (s : List Int) (t : Int) : Nat → Nat → Nat → Nat
  | 0, _, _ => NF
  | fuel + 1, f, l =>
    let m := (f + l) / 2
    if f ≤ l then
      if idx s m = t then m
      else if idx s f = t then f
      else if idx s l = t then l
      else if idx s m < t then findLoop s t fuel (m + 1) l
      else if m = 0 then NF
      else findLoop s t fuel f (m - 1)
    else NF

/-- Loop of `find_linear` and `find_linear_first` (lines 951-955):
`while (start_pos != end_pos) if (_storage[start_pos++] == t) return start_pos - 1`.
The callers only reach the loop with `start_pos <= end_pos`, so fuel
`end_pos + 1 - start_pos` covers every iteration until the indices meet. -/
def linLoop (s : List Int) (t : Int) : Nat → Nat → Nat → Nat
  | 0, _, _ => NF
  | fuel + 1, start_pos, end_pos =>
    if start_pos = end_pos then NF
    else if idx s start_pos = t then start_pos
    else linLoop s t fuel (start_pos + 1) end_pos

/-- Loop of `find_linear_last` (lines 1005-1009):
`while (start_pos != end_pos) if (_storage[end_pos--] == t) return end_pos + 1`. -/
def linLastLoop (s : List Int) (t : Int) : Nat → Nat → Nat → Nat
  | 0, _, _ => NF
  | fuel + 1, start_pos, end_pos =>
    if start_pos = end_pos then NF
    else if idx s end_pos = t then end_pos
    else linLastLoop s t fuel start_pos (end_pos - 1)

/-- Method `find_linear` (lines 932-957).  Note that the scan stops as soon as
`start_pos` reaches `end_pos`, before the element at `end_pos` is tested. -/
def find_linear (s : List Int) (t : Int) (start_pos end_pos : Nat) : Nat :=
  if s.length = 0 then NF
  else
    let end_pos := if end_pos = NF then wdec s.length else end_pos
    if start_pos > end_pos then NF
    else
      let end_pos := if end_pos = NF then wdec s.length else end_pos
      linLoop s t (end_pos + 1 - start_pos) start_pos end_pos

/-- Method `find_linear_first` (lines 959-984); its body is identical to
`find_linear`. -/
def find_linear_first (s : List Int) (t : Int) (start_pos end_pos : Nat) : Nat :=
  if s.length = 0 then NF
  else
    let end_pos := if end_pos = NF then wdec s.length else end_pos
    if start_pos > end_pos then NF
    else
      let end_pos := if end_pos = NF then wdec s.length else end_pos
      linLoop s t (end_pos + 1 - start_pos) start_pos end_pos

/-- Method `find_linear_last` (lines 986-1011): backward scan; it stops as soon as
`end_pos` reaches `start_pos`, before the element at `start_pos` is tested. -/
def find_linear_last (s : List Int) (t : Int) (start_pos end_pos : Nat) : Nat :=
  if s.length = 0 then NF
  else
    let end_pos := if end_pos = NF then wdec s.length else end_pos
    if start_pos > end_pos then NF
    else
      let end_pos := if end_pos = NF then wdec s.length else end_pos
      linLastLoop s t (end_pos + 1 - start_pos) start_pos end_pos

/-- Method `find` (lines 800-837): binary search when not corrupted, otherwise the
linear fallback. -/
def find (s : List Int) (corrupted : Bool) (t : Int) (start_pos end_pos : Nat) : Nat :=
  if s.length = 0 then NF
  else if !corrupted then
    let f := start_pos
    let l := if end_pos = NF then wdec s.length else end_pos
    findLoop s t (l + 2 - f) f l
  else find_linear s t start_pos end_pos

/-- Inner walk of `find_floor` on an exact match (lines 1033-1037):
`while (m-- > f) if (!(_storage[m] == t)) return m + 1; return f`.
The argument is the value of `m` before the decrement of each test. -/
def floorWalk (s : List Int) (t : Int) (f : Nat) : Nat → Nat
  | 0 => f
  | m + 1 =>
    if f < m + 1 then
      if idx s m = t then floorWalk s t f m else m + 1
    else f

/-- Loop of `find_floor` (lines 1031-1051), including the post-loop
resolution.  The source writes `l = m - 1` without a zero guard; at `m = 0`
that wraps (`wdec`) and the C++ loop would probe out-of-range indices
forever, which fuel exhaustion models.  The callers pass fuel
`end_pos + 2 - start_pos`, enough for every execution that stays in
range. -/
def floorLoop (s : List Int) (t : Int) : Nat → Nat → Nat → Nat
  | 0, _, _ => NF
  | fuel + 1, f, l =>
    let m := (f + l) / 2
    if f < l then
      if idx s m = t then floorWalk s t f m
      else if idx s m < t then floorLoop s t fuel (m + 1) l
      else floorLoop s t fuel f (wdec m)
    else
      if idx s m = t then m
      else if idx s m < t then m
      else wdec m

/-- Method `find_floor` (lines 1013-1055).  When the instance is corrupted it
returns the sentinel unconditionally (lines 1052-1054). -/
def find_floor (s : List Int) (corrupted : Bool) (t : Int) (start_pos end_pos : Nat) : Nat :=
  if s.length = 0 then NF
  else
    let end_pos := if end_pos = NF then wdec s.length else end_pos
    if !corrupted then
      if idx s start_pos > t then NF
      else if idx s end_pos < t then end_pos
      else floorLoop s t (end_pos + 2 - start_pos) start_pos end_pos
    else NF

/-- Inner walk of `find_ceil` on an exact match (lines 1078-1082):
`while (m++ < l) if (!(_storage[m] == t)) return m - 1; return l`.
The first argument after `l` is the remaining distance `l - m`, the second
the value of `m` before the increment of each test. -/
def ceilWalk (s : List Int) (t : Int) (l : Nat) : Nat → Nat → Nat
  | 0, _ => l
  | fuel + 1, m =>
    if m < l then
      if idx s (m + 1) = t then ceilWalk s t l fuel (m + 1) else m
    else l

/-- Loop of `find_ceil` (lines 1076-1095), including the post-loop
resolution; fuel as in `floorLoop`. -/
def ceilLoop (s : List Int) (t : Int) : Nat → Nat → Nat → Nat
  | 0, _, _ => NF
  | fuel + 1, f, l =>
    let m := (f + l) / 2
    if f < l then
      if idx s m = t then ceilWalk s t l (l - m) m
      else if idx s m < t then ceilLoop s t fuel (m + 1) l
      else ceilLoop s t fuel f (wdec m)
    else
      if idx s m = t then m
      else if idx s m > t then m
      else m + 1

/-- Method `find_ceil` (lines 1057-1099).  Its first pre-check reads `_storage[0]`,
not `_storage[start_pos]`.  When the instance is corrupted it returns the
sentinel unconditionally (lines 1096-1098). -/
def find_ceil (s : List Int) (corrupted : Bool) (t : Int) (start_pos end_pos : Nat) : Nat :=
  if s.length = 0 then NF
  else
    let end_pos := if end_pos = NF then wdec s.length else end_pos
    if !corrupted then
      if idx s 0 > t then 0
      else if idx s end_pos < t then NF
      else ceilLoop s t (end_pos + 2 - start_pos) start_pos end_pos
    else NF

/-- Equal-run walk of `find_first` (lines 854-857):
`while ((t == _storage[pos]) && (pos >= start_pos)) prev_pos = pos--`.
The condition reads `_storage[pos]` before checking the lower bound, and
`pos--` wraps to `NF` at zero; fuel `pos + 2` covers every execution whose
index does not wrap. -/
def firstWalk (s : List Int) (t : Int) (start_pos : Nat) : Nat → Nat → Nat → Nat
  | 0, _, prev_pos => prev_pos
  | fuel + 1, pos, prev_pos =>
    if idx s pos = t ∧ start_pos ≤ pos then firstWalk s t start_pos fuel (wdec pos) pos
    else prev_pos

/-- The indices the `firstWalk` loop condition reads from `_storage`, in
order; it mirrors `firstWalk` step for step. -/
def firstWalkReads (s : List Int) (t : Int) (start_pos : Nat) : Nat → Nat → List Nat
  | 0, _ => []
  | fuel + 1, pos =>
    pos :: (if idx s pos = t ∧ start_pos ≤ pos then
      firstWalkReads s t start_pos fuel (wdec pos) else [])

/-- Method `find_first` (lines 839-862).  `prev_pos` starts uninitialized in the
source; it is modelled as 0, and is overwritten before use whenever `find`
returned a genuinely matching position. -/
def find_first (s : List Int) (corrupted : Bool) (t : Int) (start_pos end_pos : Nat) : Nat :=
  if s.length = 0 then NF
  else
    let end_pos := if end_pos = NF then wdec s.length else end_pos
    if !corrupted then
      let pos := find s corrupted t start_pos end_pos
      if pos = NF then NF
      else firstWalk s t start_pos (pos + 2) pos 0
    else find_linear_first s t start_pos end_pos

/-- Equal-run walk of `find_last` (lines 877-880):
`while ((t == _storage[pos]) && (pos <= end_pos)) prev_pos = pos++`.
The index only grows, so fuel `end_pos + 2 - pos` covers every
execution. -/
def lastWalk (s : List Int) (t : Int) (end_pos : Nat) : Nat → Nat → Nat → Nat
  | 0, _, prev_pos => prev_pos
  | fuel + 1, pos, prev_pos =>
    if idx s pos = t ∧ pos ≤ end_pos then lastWalk s t end_pos fuel (pos + 1) pos
    else prev_pos

/-- Method `find_last` (lines 864-885): it has no emptiness guard of its own, and
its corrupted branch calls `find_linear_last(t)` with default bounds,
dropping `start_pos` and `end_pos`. -/
def find_last (s : List Int) (corrupted : Bool) (t : Int) (start_pos end_pos : Nat) : Nat :=
  let end_pos := if end_pos = NF then wdec s.length else end_pos
  if !corrupted then
    let pos := find s corrupted t start_pos end_pos
    if pos = NF then NF
    else lastWalk s t end_pos (end_pos + 2 - pos) pos 0
  else find_linear_last s t 0 NF

/-- Method `find_next` (lines 887-906).  There is no emptiness or range guard
before `_storage[current_pos]` and `_storage[current_pos + 1]` are read. -/
def find_next (s : List Int) (corrupted : Bool) (current_pos end_pos : Nat) : Nat :=
  let end_pos := if end_pos = NF then wdec s.length else end_pos
  if current_pos = end_pos then NF
  else if !corrupted then
    if idx s current_pos = idx s (current_pos + 1) then current_pos + 1
    else NF
  else find_first s corrupted (idx s current_pos) (current_pos + 1) end_pos

/-- Method `find_prev` (lines 908-930). -/
def find_prev (s : List Int) (corrupted : Bool) (current_pos start_pos : Nat) : Nat :=
  if current_pos ≤ start_pos then NF
  else if !corrupted then
    if idx s current_pos = idx s (current_pos - 1) then current_pos - 1
    else NF
  else find_last s corrupted (idx s current_pos) start_pos (current_pos - 1)

/-- The observable state of a `cim::sorted_vector<int>` instance: its
element sequence and the three bookkeeping fields (lines 221-224).
`_last_modified = (size_t)-1` is `NF`. -/
structure sorted_vector where
  storage : List Int
  last_modified : Nat
  is_corrupted : Bool
  flag_suspend_autorepair : Bool
deriving DecidableEq, Repr

/-- A default-constructed instance (lines 222-224, 227-228). -/
def sorted_vector.init : sorted_vector :=
  { storage := [], last_modified := NF, is_corrupted := false,
    flag_suspend_autorepair := false }

/-- Method `single_shift_left` (lines 1328-1357): removes `_storage[start_pos]`
and reinserts it at position `end_pos` of the shortened vector. -/
def single_shift_left (s : List Int) (start_pos end_pos : Nat) : List Int :=
  if start_pos = end_pos then s
  else
    let end_pos := if end_pos = NF then wdec s.length else end_pos
    (s.eraseIdx start_pos).insertIdx end_pos (idx s start_pos)

/-- Method `single_shift_right` (lines 1359-1383): removes `_storage[end_pos]`
and reinserts it at position `start_pos`. -/
def single_shift_right (s : List Int) (start_pos end_pos : Nat) : List Int :=
  if start_pos = end_pos then s
  else
    let end_pos := if end_pos = NF then wdec s.length else end_pos
    (s.eraseIdx end_pos).insertIdx start_pos (idx s end_pos)

/-- Method `sort` (lines 1101-1106): `std::sort` on the whole storage, then clear
the corruption flag.  On a linearly ordered element type the ascending
permutation of a sequence is unique, so any correct `std::sort` produces
exactly this list. -/
def sorted_vector.sort (sv : sorted_vector) : sorted_vector :=
  { sv with storage := sv.storage.mergeSort (fun a b => decide (a ≤ b)),
            is_corrupted := false }

/-- Method `repair` (lines 1108-1170).  With a tracked single index the flag is
cleared first, so the `find_ceil` / `find_floor` calls below run in the
non-corrupted (binary) mode; in the shift branches, the value at
`_last_modified` is saved, the sub-range is rotated by `single_shift_right`
or `single_shift_left`, and the saved value is written at the computed
position.  `_last_modified` is reset to `(size_t)-1` at the end of the
corrupted branch. -/
def repair (sv : sorted_vector) : sorted_vector :=
  if sv.is_corrupted then
    if sv.last_modified = NF then
      { sv.sort with last_modified := NF }
    else
      let i := sv.last_modified
      let s := sv.storage
      let s2 :=
        if 0 < i ∧ idx s i < idx s (i - 1) then
          let pos_ceil := find_ceil s false (idx s i) 0 (i - 1)
          (single_shift_right s pos_ceil i).set pos_ceil (idx s i)
        else if i < wdec s.length ∧ idx s (i + 1) < idx s i then
          let pos_floor := find_floor s false (idx s i) (i + 1) (wdec s.length)
          (single_shift_left s i pos_floor).set pos_floor (idx s i)
        else s
      { sv with storage := s2, last_modified := NF, is_corrupted := false }
  else sv

/-- Method `push` (lines 615-685, const-reference overload; the rvalue overload is
behaviourally identical).  A corrupted, autorepair-enabled instance is
repaired first; a (still) corrupted instance just appends. -/
def push (sv : sorted_vector) (t : Int) : sorted_vector :=
  let sv := if sv.is_corrupted ∧ ¬sv.flag_suspend_autorepair then repair sv else sv
  if !sv.is_corrupted then
    if sv.storage.length = 0 then { sv with storage := sv.storage ++ [t] }
    else
      let pos := find_ceil sv.storage sv.is_corrupted t 0 NF
      if pos = NF then { sv with storage := sv.storage ++ [t] }
      else if idx sv.storage pos = t then
        { sv with storage := sv.storage.insertIdx (pos + 1) t }
      else { sv with storage := sv.storage.insertIdx pos t }
  else { sv with storage := sv.storage ++ [t] }

/-- Method `replace` (lines 762-779): overwrite the first element `find` locates,
or fall back to `push`. -/
def replace (sv : sorted_vector) (t : Int) : sorted_vector :=
  let sv := if sv.is_corrupted ∧ ¬sv.flag_suspend_autorepair then repair sv else sv
  let pos := find sv.storage sv.is_corrupted t 0 NF
  if pos ≠ NF then { sv with storage := sv.storage.set pos t }
  else push sv t

/-- Method `merge` with a sequence argument (lines 1190-1199; the
`sorted_vector` overload at 1172-1181 runs the same statements on the other
instance's storage): append everything, mark fully corrupted, repair. -/
def merge (sv : sorted_vector) (v : List Int) : sorted_vector :=
  repair { sv with storage := sv.storage ++ v, last_modified := NF,
                   is_corrupted := true }

/-- Non-const `operator[]` (lines 412-429): autorepair unless suspended,
then record the accessed index — or degrade to `(size_t)-1` if the instance
was (still) corrupted — and set the corruption flag. -/
def subscript_mut (sv : sorted_vector) (pos : Nat) : sorted_vector :=
  let sv := if ¬sv.flag_suspend_autorepair then repair sv else sv
  { sv with last_modified := if sv.is_corrupted then NF else pos,
            is_corrupted := true }

/-- Writing `sv[pos] = x` through the reference returned by the non-const
`operator[]`. -/
def subscript_write (sv : sorted_vector) (pos : Nat) (x : Int) : sorted_vector :=
  let sv := subscript_mut sv pos
  { sv with storage := sv.storage.set pos x }

/-- Non-const `at` (lines 397-402): it forwards to `_storage.at(pos)` and
performs no state update whatsoever — unlike `operator[]`, it neither
repairs nor marks the instance corrupted. -/
def at_mut (sv : sorted_vector) (_pos : Nat) : sorted_vector :=
  sv

/-- Method `suspend_autorepair` (lines 1305-1313): sets the flag, and defensively
marks the instance fully corrupted with no tracked index. -/
def suspend_autorepair (sv : sorted_vector) : sorted_vector :=
  { sv with flag_suspend_autorepair := true, last_modified := NF,
            is_corrupted := true }

/-- Method `resume_autorepair` (lines 1315-1324): clears the flag and repairs. -/
def resume_autorepair (sv : sorted_vector) : sorted_vector :=
  repair { sv with flag_suspend_autorepair := false }

/-- A mutating call from the family quantified over by the sortedness
claim: `push(t)`, `replace(t)`, or `merge(v)`. -/
inductive Op where
  | push : Int → Op
  | replace : Int → Op
  | merge : List Int → Op
deriving DecidableEq, Repr

/-- Execute one call. -/
def runOp (sv : sorted_vector) : Op → sorted_vector
  | Op.push t => push sv t
  | Op.replace t => replace sv t
  | Op.merge v => merge sv v

/-- Execute a call sequence left to right. -/
def run (sv : sorted_vector) (ops : List Op) : sorted_vector :=
  ops.foldl runOp sv

/-- The sub-range `[a, b]` of the storage is ascending.  All reads are
through `idx`, so the predicate is only meaningful for `b < s.length`. -/
def SortedRange (s : List Int) (a b : Nat) : Prop :=
  ∀ i j, a ≤ i → i ≤ j → j ≤ b → idx s i ≤ idx s j

/-- The final-state invariant maintained by `push`, `replace` and `merge`
on an autorepair-enabled instance. -/
def Inv (sv : sorted_vector) : Prop :=
  sv.is_corrupted = false ∧ sv.flag_suspend_autorepair = false ∧
    List.Sorted (· ≤ ·) sv.storage

/-- A sorted, uncorrupted, autorepair-enabled instance holding `l`. -/
def mkSorted (l : List Int) : sorted_vector :=
  { storage := l, last_modified := NF, is_corrupted := false,
    flag_suspend_autorepair := false }

/-- A sorted, uncorrupted one-element container holding `{5}`. -/
def sv_single : sorted_vector :=
  { storage := [5], last_modified := NF, is_corrupted := false,
    flag_suspend_autorepair := false }

/-- A sorted, uncorrupted two-element container holding `{1, 2}`. -/
def sv_pair : sorted_vector :=
  { storage := [1, 2], last_modified := NF, is_corrupted := false,
    flag_suspend_autorepair := false }

/-- Upper bound on how many elements one call can add. -/
def opGrowth : Op → Nat
  | Op.push _ => 1
  | Op.replace _ => 1
  | Op.merge v => v.length

/-- Upper bound on how many elements a call sequence can add; a container
reachable through `size_t`-indexed storage always satisfies
`opsGrowth ops ≤ NF`. -/
def opsGrowth (ops : List Op) : Nat :=
  (ops.map opGrowth).sum

section Lemmas

/-- Unfolding `wdec` on a positive number. -/
theorem wdec_eq_sub {n : Nat} (h : 0 < n) : wdec n = n - 1 := by
  cases n with
  | zero => exact absurd h (by omega)
  | succ k => rfl

/-- Reading through `idx` agrees with list indexing inside the range. -/
theorem idx_eq_getElem {s : List Int} {i : Nat} (h : i < s.length) :
    idx s i = s[i] :=
  List.getD_eq_getElem s 0 h

/-- Reading through `idx` gives the default outside the range. -/
theorem idx_eq_default {s : List Int} {i : Nat} (h : s.length ≤ i) :
    idx s i = 0 :=
  List.getD_eq_default s 0 h

/-- Sortedness in terms of `idx`. -/
theorem sorted_iff_idx {s : List Int} :
    List.Sorted (· ≤ ·) s ↔ ∀ i j, i < j → j < s.length → idx s i ≤ idx s j := by
  rw [List.Sorted, List.pairwise_iff_getElem]
  constructor
  · intro h i j hij hj
    rw [idx_eq_getElem (lt_trans hij hj), idx_eq_getElem hj]
    exact h i j (lt_trans hij hj) hj hij
  · intro h i j hi hj hij
    have := h i j hij hj
    rwa [idx_eq_getElem (lt_trans hij hj), idx_eq_getElem hj] at this

/-- Non-strict version of `sorted_iff_idx`, in the `SortedRange` shape. -/
theorem sortedRange_of_sorted {s : List Int} {a b : Nat}
    (hs : List.Sorted (· ≤ ·) s) (hb : b < s.length) : SortedRange s a b := by
  intro i j _ hij hjb
  rcases Nat.lt_or_ge i j with h | h
  · exact (sorted_iff_idx.1 hs) i j h (lt_of_le_of_lt hjb hb)
  · have : i = j := le_antisymm hij h
    simp [this]

/-- Shrinking the range of `SortedRange`. -/
theorem SortedRange.shrink {s : List Int} {a b a2 b2 : Nat}
    (h : SortedRange s a b) (ha : a ≤ a2) (hb : b2 ≤ b) :
    SortedRange s a2 b2 := by
  intro i j h1 h2 h3
  exact h i j (le_trans ha h1) h2 (le_trans h3 hb)

/-- A list is sorted as soon as each adjacent pair is ordered. -/
theorem sorted_of_adjacent {s : List Int}
    (h : ∀ k, k + 1 < s.length → idx s k ≤ idx s (k + 1)) :
    List.Sorted (· ≤ ·) s := by
  rw [sorted_iff_idx]
  have step : ∀ d i, i + d < s.length → idx s i ≤ idx s (i + d) := by
    intro d
    induction d with
    | zero => intro i _; simp
    | succ d ih =>
      intro i hi
      have h1 : idx s i ≤ idx s (i + d) := ih i (by omega)
      have h2 : idx s (i + d) ≤ idx s (i + d + 1) := h (i + d) (by omega)
      exact le_trans h1 h2
  intro i j hij hj
  have := step (j - i) i (by omega)
  have hj' : i + (j - i) = j := by omega
  rwa [hj'] at this

/-- Computing `idx` after `eraseIdx`. -/
theorem idx_eraseIdx {l : List Int} {i : Nat} (hi : i < l.length) (k : Nat) :
    idx (l.eraseIdx i) k = if k < i then idx l k else idx l (k + 1) := by
  induction l generalizing i k with
  | nil => simp at hi
  | cons a tl ih =>
    cases i with
    | zero => simp [idx]
    | succ i' =>
      cases k with
      | zero => simp [idx, List.eraseIdx]
      | succ k' =>
        have hi' : i' < tl.length := by simpa using hi
        have := ih hi' k'
        simp only [List.eraseIdx]
        by_cases h : k' < i'
        · simp only [idx, List.getD_cons_succ] at this ⊢
          simp [h] at this ⊢
          exact this
        · simp only [idx, List.getD_cons_succ] at this ⊢
          simp [h] at this ⊢
          exact this

/-- Computing `idx` after `insertIdx`. -/
theorem idx_insertIdx {l : List Int} {p : Nat} (x : Int) (hp : p ≤ l.length) (k : Nat) :
    idx (l.insertIdx p x) k =
      if k < p then idx l k else if k = p then x else idx l (k - 1) := by
  induction l generalizing p k with
  | nil =>
    have : p = 0 := by simpa using hp
    subst this
    cases k with
    | zero => simp [idx]
    | succ k' => simp [idx]
  | cons a tl ih =>
    cases p with
    | zero =>
      cases k with
      | zero => simp [idx]
      | succ k' => simp [idx]
    | succ p' =>
      have hp' : p' ≤ tl.length := by simpa using hp
      cases k with
      | zero => simp [idx, List.insertIdx_succ_cons]
      | succ k' =>
        have := ih hp' k'
        simp only [List.insertIdx_succ_cons]
        by_cases h1 : k' < p'
        · simp only [idx, List.getD_cons_succ] at this ⊢
          simp [h1] at this ⊢
          exact this
        · by_cases h2 : k' = p'
          · simp only [idx, List.getD_cons_succ] at this ⊢
            simp [h1, h2] at this ⊢
            exact this
          · simp only [idx, List.getD_cons_succ] at this ⊢
            simp [h1, h2] at this ⊢
            obtain ⟨k2, rfl⟩ : ∃ k2, k' = k2 + 1 := ⟨k' - 1, by omega⟩
            simpa using this

/-- Computing `idx` after `set`. -/
theorem idx_set {l : List Int} {i : Nat} (x : Int) (k : Nat) :
    idx (l.set i x) k = if i = k ∧ i < l.length then x else idx l k := by
  induction l generalizing i k with
  | nil => simp [idx]
  | cons a tl ih =>
    cases i with
    | zero =>
      cases k with
      | zero => simp [idx]
      | succ k' => simp [idx]
    | succ i' =>
      cases k with
      | zero => simp [idx]
      | succ k' =>
        have h := @ih i' k'
        simp only [List.set_cons_succ, idx, List.getD_cons_succ]
        simp only [idx] at h
        rw [h]
        simp

/-- Inserting at a valid position is a permutation of consing. -/
theorem perm_insertIdx_cons {u : List Int} {p : Nat} (x : Int) (hp : p ≤ u.length) :
    (u.insertIdx p x).Perm (x :: u) := by
  induction u generalizing p with
  | nil =>
    have : p = 0 := by simpa using hp
    subst this
    simp
  | cons a tl ih =>
    cases p with
    | zero => simp
    | succ p' =>
      have hp' : p' ≤ tl.length := by simpa using hp
      simp only [List.insertIdx_succ_cons]
      exact ((ih hp').cons a).trans (List.Perm.swap x a tl)

/-- Overwriting position `i` is, up to permutation, removing position `i`
and consing the new value. -/
theorem set_perm_cons_eraseIdx {l : List Int} {i : Nat} (x : Int) (hi : i < l.length) :
    (l.set i x).Perm (x :: l.eraseIdx i) := by
  rw [List.set_eq_take_append_cons_drop, if_pos hi, List.eraseIdx_eq_take_drop_succ]
  exact List.perm_middle

/-- Erasing the overwritten position forgets the overwrite. -/
theorem eraseIdx_set_same (l : List Int) (i : Nat) (x : Int) :
    (l.set i x).eraseIdx i = l.eraseIdx i := by
  induction l generalizing i with
  | nil => simp
  | cons a tl ih =>
    cases i with
    | zero => simp
    | succ i' => simpa using ih i'

/-- Writing the value already stored is a no-op. -/
theorem set_eq_of_idx {l : List Int} {i : Nat} {x : Int}
    (hi : i < l.length) (hx : idx l i = x) : l.set i x = l := by
  apply List.ext_getElem
  · simp
  · intro n h1 h2
    rw [List.getElem_set]
    by_cases h : i = n
    · subst h
      have hgi : l[i] = x := by rw [← idx_eq_getElem hi, hx]
      simp [hgi]
    · simp [h]

/-- Erasing preserves sortedness. -/
theorem sorted_eraseIdx {l : List Int} (i : Nat) (hs : List.Sorted (· ≤ ·) l) :
    List.Sorted (· ≤ ·) (l.eraseIdx i) := by
  by_cases hi : i < l.length
  · have hlen : (l.eraseIdx i).length = l.length - 1 := by
      rw [List.length_eraseIdx]
      simp [hi]
    apply sorted_of_adjacent
    intro k hk
    rw [idx_eraseIdx hi, idx_eraseIdx hi]
    by_cases h1 : k < i
    · by_cases h2 : k + 1 < i
      · rw [if_pos h1, if_pos h2]
        exact (sorted_iff_idx.1 hs) k (k + 1) (by omega) (by omega)
      · rw [if_pos h1, if_neg h2]
        exact (sorted_iff_idx.1 hs) k (k + 2) (by omega) (by omega)
    · rw [if_neg h1, if_neg (by omega : ¬k + 1 < i)]
      exact (sorted_iff_idx.1 hs) (k + 1) (k + 2) (by omega) (by omega)
  · rw [List.eraseIdx_of_length_le (by omega)]
    exact hs

/-- Inserting between the correct neighbours preserves sortedness. -/
theorem sorted_insertIdx {u : List Int} {p : Nat} {x : Int}
    (hs : List.Sorted (· ≤ ·) u) (hp : p ≤ u.length)
    (hleft : p = 0 ∨ idx u (p - 1) ≤ x)
    (hright : p = u.length ∨ x ≤ idx u p) :
    List.Sorted (· ≤ ·) (u.insertIdx p x) := by
  have hlen : (u.insertIdx p x).length = u.length + 1 := List.length_insertIdx p u hp
  apply sorted_of_adjacent
  intro k hk
  rw [hlen] at hk
  rw [idx_insertIdx x hp, idx_insertIdx x hp]
  by_cases h1 : k + 1 < p
  · rw [if_pos (by omega), if_pos h1]
    exact (sorted_iff_idx.1 hs) k (k + 1) (by omega) (by omega)
  · by_cases h2 : k + 1 = p
    · rw [if_pos (by omega), if_neg h1, if_pos h2]
      rcases hleft with h | h
      · omega
      · have : k = p - 1 := by omega
        rw [this]
        exact h
    · by_cases h3 : k = p
      · rw [if_neg (by omega), if_pos h3, if_neg h1, if_neg h2]
        rcases hright with h | h
        · omega
        · have : k + 1 - 1 = p := by omega
          rw [this, ← h3]
          rw [h3]
          exact h
      · rw [if_neg (by omega), if_neg h3, if_neg h1, if_neg h2]
        have hk1 : 1 ≤ k := by omega
        have e1 : k + 1 - 1 = (k - 1) + 1 := by omega
        rw [e1]
        exact (sorted_iff_idx.1 hs) (k - 1) (k - 1 + 1) (by omega) (by omega)

/-- The exact-match walk of `find_floor` lands on the leftmost index of the
equal run. -/
theorem floorWalk_spec {s : List Int} {t : Int} {a e f : Nat}
    (SR : SortedRange s a e) (haf : a ≤ f) :
    ∀ m, f ≤ m → m ≤ e → idx s m = t →
    (∀ k, a ≤ k → k < f → idx s k < t) →
    a ≤ floorWalk s t f m ∧ floorWalk s t f m ≤ m ∧
    idx s (floorWalk s t f m) = t ∧
    (∀ k, a ≤ k → k < floorWalk s t f m → idx s k < t) := by
  intro m
  induction m with
  | zero =>
    intro hfm hme hmt hlow
    have hf0 : f = 0 := by omega
    subst hf0
    simp only [floorWalk]
    exact ⟨haf, Nat.le_refl 0, hmt, fun k _ hk2 => absurd hk2 (by omega)⟩
  | succ m ih =>
    intro hfm hme hmt hlow
    simp only [floorWalk]
    by_cases h1 : f < m + 1
    · by_cases h2 : idx s m = t
      · rw [if_pos h1, if_pos h2]
        have hr := ih (by omega) (by omega) h2 hlow
        exact ⟨hr.1, le_trans hr.2.1 (by omega), hr.2.2⟩
      · rw [if_pos h1, if_neg h2]
        refine ⟨by omega, Nat.le_refl (m + 1), hmt, ?_⟩
        intro k hk1 hk2
        have hka : idx s k ≤ idx s m := SR k m hk1 (by omega) (by omega)
        have hmlt : idx s m < t := by
          have hup : idx s m ≤ idx s (m + 1) := SR m (m + 1) (by omega) (by omega) hme
          rw [hmt] at hup
          exact lt_of_le_of_ne hup h2
        exact lt_of_le_of_lt hka hmlt
    · rw [if_neg h1]
      have hf : f = m + 1 := by omega
      refine ⟨haf, by omega, ?_, fun k hk1 hk2 => hlow k hk1 hk2⟩
      rw [hf]
      exact hmt

/-- Invariant-carrying specification of the `find_floor` loop, on a range
that is sorted and whose left endpoint does not exceed `t`. -/
theorem floorLoop_spec {s : List Int} {t : Int} {a e : Nat}
    (SR : SortedRange s a e) (hat : idx s a ≤ t) :
    ∀ fuel f l, a ≤ f → f ≤ l + 1 → a ≤ l → l ≤ e →
    l + 2 ≤ fuel + f →
    (∀ k, a ≤ k → k < f → idx s k < t) →
    (∀ k, l < k → k ≤ e → t < idx s k) →
    a ≤ floorLoop s t fuel f l ∧ floorLoop s t fuel f l ≤ e ∧
    idx s (floorLoop s t fuel f l) ≤ t ∧
    (∀ k, a ≤ k → k < floorLoop s t fuel f l → idx s k < t) ∧
    (idx s (floorLoop s t fuel f l) ≠ t →
      ∀ k, floorLoop s t fuel f l < k → k ≤ e → t < idx s k) := by
  intro fuel
  induction fuel with
  | zero =>
    intro f l _ hfl1 _ _ hfuel _ _
    omega
  | succ fuel ih =>
    intro f l haf hfl1 hal hle hfuel hlow hhigh
    simp only [floorLoop]
    by_cases hfl : f < l
    · have hfm : f ≤ (f + l) / 2 := by omega
      have hml : (f + l) / 2 < l := by omega
      by_cases h2 : idx s ((f + l) / 2) = t
      · rw [if_pos hfl, if_pos h2]
        have hw := floorWalk_spec SR haf ((f + l) / 2) hfm (by omega) h2 hlow
        refine ⟨hw.1, by omega, le_of_eq hw.2.2.1, hw.2.2.2, ?_⟩
        intro hne
        exact absurd hw.2.2.1 hne
      · by_cases h3 : idx s ((f + l) / 2) < t
        · rw [if_pos hfl, if_neg h2, if_pos h3]
          apply ih ((f + l) / 2 + 1) l (by omega) (by omega) hal hle (by omega)
          · intro k hk1 hk2
            by_cases hkf : k < f
            · exact hlow k hk1 hkf
            · have : idx s k ≤ idx s ((f + l) / 2) := SR k ((f + l) / 2) hk1 (by omega) (by omega)
              exact lt_of_le_of_lt this h3
          · exact hhigh
        · rw [if_pos hfl, if_neg h2, if_neg h3]
          have hgt : t < idx s ((f + l) / 2) := lt_of_le_of_ne (not_lt.1 h3) (fun h => h2 h.symm)
          have hma : a < (f + l) / 2 := by
            rcases Nat.lt_or_ge a ((f + l) / 2) with h | h
            · exact h
            · have hae : (f + l) / 2 = a := by omega
              rw [hae] at hgt
              omega
          rw [wdec_eq_sub (by omega)]
          apply ih f ((f + l) / 2 - 1) haf (by omega) (by omega) (by omega) (by omega) hlow
          intro k hk1 hk2
          by_cases hkl : k ≤ l
          · have : idx s ((f + l) / 2) ≤ idx s k := SR ((f + l) / 2) k (by omega) (by omega) (by omega)
            exact lt_of_lt_of_le hgt this
          · exact hhigh k (by omega) hk2
    · have hm : (f + l) / 2 = l := by omega
      rw [if_neg hfl, hm]
      by_cases h2 : idx s l = t
      · rw [if_pos h2]
        refine ⟨hal, hle, le_of_eq h2, ?_, ?_⟩
        · intro k hk1 hk2
          exact hlow k hk1 (by omega)
        · intro hne
          exact absurd h2 hne
      · by_cases h3 : idx s l < t
        · rw [if_neg h2, if_pos h3]
          refine ⟨hal, hle, le_of_lt h3, ?_, ?_⟩
          · intro k hk1 hk2
            exact hlow k hk1 (by omega)
          · intro _ k hk1 hk2
            exact hhigh k hk1 hk2
        · rw [if_neg h2, if_neg h3]
          have hgt : t < idx s l := lt_of_le_of_ne (not_lt.1 h3) (fun h => h2 h.symm)
          have hla : a < l := by
            rcases Nat.lt_or_ge a l with h | h
            · exact h
            · have hae : l = a := by omega
              rw [hae] at hgt
              omega
          rw [wdec_eq_sub (by omega)]
          have hlf : l - 1 < f := by omega
          refine ⟨by omega, by omega, le_of_lt (hlow (l - 1) (by omega) hlf), ?_, ?_⟩
          · intro k hk1 hk2
            exact hlow k hk1 (by omega)
          · intro _ k hk1 hk2
            by_cases hkl : k = l
            · rw [hkl]
              exact hgt
            · exact hhigh k (by omega) hk2

/-- The exact-match walk of `find_ceil` lands on the rightmost index of the
equal run. -/
theorem ceilWalk_spec {s : List Int} {t : Int} {a e l : Nat}
    (SR : SortedRange s a e) (hle : l ≤ e)
    (hhigh : ∀ k, l < k → k ≤ e → t < idx s k) :
    ∀ fuel m, a ≤ m → m ≤ l → idx s m = t → fuel = l - m →
    m ≤ ceilWalk s t l fuel m ∧ ceilWalk s t l fuel m ≤ l ∧
    idx s (ceilWalk s t l fuel m) = t ∧
    (∀ k, ceilWalk s t l fuel m < k → k ≤ e → t < idx s k) := by
  intro fuel
  induction fuel with
  | zero =>
    intro m ham hml hmt hfuel
    have hm : m = l := by omega
    subst hm
    simp only [ceilWalk]
    exact ⟨Nat.le_refl m, Nat.le_refl m, hmt, fun k hk1 hk2 => hhigh k hk1 hk2⟩
  | succ fuel ih =>
    intro m ham hml hmt hfuel
    have hmll : m < l := by omega
    simp only [ceilWalk]
    rw [if_pos hmll]
    by_cases h2 : idx s (m + 1) = t
    · rw [if_pos h2]
      have hr := ih (m + 1) (by omega) (by omega) h2 (by omega)
      exact ⟨le_trans (by omega) hr.1, hr.2⟩
    · rw [if_neg h2]
      refine ⟨Nat.le_refl m, by omega, hmt, ?_⟩
      intro k hk1 hk2
      have hstep : t < idx s (m + 1) := by
        have hup : idx s m ≤ idx s (m + 1) := SR m (m + 1) ham (by omega) (by omega)
        rw [hmt] at hup
        exact lt_of_le_of_ne hup (fun h => h2 h.symm)
      by_cases hk : k = m + 1
      · rw [hk]
        exact hstep
      · have : idx s (m + 1) ≤ idx s k := SR (m + 1) k (by omega) (by omega) hk2
        exact lt_of_lt_of_le hstep this

/-- Invariant-carrying specification of the `find_ceil` loop, on a range
that is sorted, whose left endpoint does not exceed `t` and whose right
endpoint is not below `t`. -/
theorem ceilLoop_spec {s : List Int} {t : Int} {a e : Nat}
    (SR : SortedRange s a e) (hat : idx s a ≤ t) (hte : t ≤ idx s e) :
    ∀ fuel f l, a ≤ f → f ≤ l + 1 → a ≤ l → l ≤ e →
    l + 2 ≤ fuel + f →
    (∀ k, a ≤ k → k < f → idx s k < t) →
    (∀ k, l < k → k ≤ e → t < idx s k) →
    a ≤ ceilLoop s t fuel f l ∧ ceilLoop s t fuel f l ≤ e ∧
    t ≤ idx s (ceilLoop s t fuel f l) ∧
    (∀ k, ceilLoop s t fuel f l < k → k ≤ e → t < idx s k) ∧
    (idx s (ceilLoop s t fuel f l) ≠ t →
      ∀ k, a ≤ k → k < ceilLoop s t fuel f l → idx s k < t) := by
  intro fuel
  induction fuel with
  | zero =>
    intro f l _ hfl1 _ _ hfuel _ _
    omega
  | succ fuel ih =>
    intro f l haf hfl1 hal hle hfuel hlow hhigh
    simp only [ceilLoop]
    by_cases hfl : f < l
    · have hfm : f ≤ (f + l) / 2 := by omega
      have hml : (f + l) / 2 < l := by omega
      by_cases h2 : idx s ((f + l) / 2) = t
      · rw [if_pos hfl, if_pos h2]
        have hw := ceilWalk_spec SR hle hhigh (l - (f + l) / 2) ((f + l) / 2)
          (by omega) (by omega) h2 rfl
        refine ⟨by omega, le_trans hw.2.1 hle, le_of_eq hw.2.2.1.symm, hw.2.2.2, ?_⟩
        intro hne
        exact absurd hw.2.2.1 hne
      · by_cases h3 : idx s ((f + l) / 2) < t
        · rw [if_pos hfl, if_neg h2, if_pos h3]
          apply ih ((f + l) / 2 + 1) l (by omega) (by omega) hal hle (by omega)
          · intro k hk1 hk2
            by_cases hkf : k < f
            · exact hlow k hk1 hkf
            · have : idx s k ≤ idx s ((f + l) / 2) := SR k ((f + l) / 2) hk1 (by omega) (by omega)
              exact lt_of_le_of_lt this h3
          · exact hhigh
        · rw [if_pos hfl, if_neg h2, if_neg h3]
          have hgt : t < idx s ((f + l) / 2) := lt_of_le_of_ne (not_lt.1 h3) (fun h => h2 h.symm)
          have hma : a < (f + l) / 2 := by
            rcases Nat.lt_or_ge a ((f + l) / 2) with h | h
            · exact h
            · have hae : (f + l) / 2 = a := by omega
              rw [hae] at hgt
              omega
          rw [wdec_eq_sub (by omega)]
          apply ih f ((f + l) / 2 - 1) haf (by omega) (by omega) (by omega) (by omega) hlow
          intro k hk1 hk2
          by_cases hkl : k ≤ l
          · have : idx s ((f + l) / 2) ≤ idx s k := SR ((f + l) / 2) k (by omega) (by omega) (by omega)
            exact lt_of_lt_of_le hgt this
          · exact hhigh k (by omega) hk2
    · have hm : (f + l) / 2 = l := by omega
      rw [if_neg hfl, hm]
      by_cases h2 : idx s l = t
      · rw [if_pos h2]
        refine ⟨hal, hle, le_of_eq h2.symm, fun k hk1 hk2 => hhigh k hk1 hk2, ?_⟩
        intro hne
        exact absurd h2 hne
      · by_cases h3 : idx s l > t
        · rw [if_neg h2, if_pos h3]
          refine ⟨hal, hle, le_of_lt h3, fun k hk1 hk2 => hhigh k hk1 hk2, ?_⟩
          intro _ k hk1 hk2
          exact hlow k hk1 (by omega)
        · rw [if_neg h2, if_neg h3]
          have hlt : idx s l < t := lt_of_le_of_ne (not_lt.1 h3) h2
          have hlee : l < e := by
            rcases Nat.lt_or_ge l e with h | h
            · exact h
            · have hae : l = e := by omega
              rw [hae] at hlt
              omega
          refine ⟨by omega, by omega, le_of_lt (hhigh (l + 1) (by omega) (by omega)), ?_, ?_⟩
          · intro k hk1 hk2
            exact hhigh k (by omega) hk2
          · intro _ k hk1 hk2
            by_cases hkl : k = l
            · rw [hkl]
              exact hlt
            · exact hlow k hk1 (by omega)

/-- The decimal value of the sentinel. -/
theorem NF_eq : NF = 18446744073709551615 := rfl

/-- Specification of `find_floor` on a sorted sub-range of an uncorrupted
instance, with an explicitly resolved `end_pos`. -/
theorem find_floor_spec {s : List Int} {t : Int} {a e : Nat}
    (SR : SortedRange s a e) (hae : a ≤ e) (he : e < s.length) (heNF : e < NF) :
    (find_floor s false t a e = NF ↔ t < idx s a) ∧
    (find_floor s false t a e ≠ NF →
      a ≤ find_floor s false t a e ∧ find_floor s false t a e ≤ e ∧
      idx s (find_floor s false t a e) ≤ t ∧
      (∀ k, a ≤ k → k < find_floor s false t a e → idx s k < t) ∧
      (idx s (find_floor s false t a e) ≠ t →
        ∀ k, find_floor s false t a e < k → k ≤ e → t < idx s k)) := by
  have h0 : ¬s.length = 0 := by omega
  have henf : ¬e = NF := by omega
  simp only [find_floor, if_neg h0, if_neg henf, Bool.not_false, if_true]
  by_cases hp1 : idx s a > t
  · rw [if_pos hp1]
    exact ⟨⟨fun _ => hp1, fun _ => rfl⟩, fun h => absurd rfl h⟩
  · rw [if_neg hp1]
    by_cases hp2 : idx s e < t
    · rw [if_pos hp2]
      constructor
      · constructor
        · intro h
          exact absurd h henf
        · intro h
          omega
      · intro _
        refine ⟨hae, Nat.le_refl e, le_of_lt hp2, ?_, ?_⟩
        · intro k hk1 hk2
          exact lt_of_le_of_lt (SR k e hk1 (by omega) (Nat.le_refl e)) hp2
        · intro _ k hk1 hk2
          omega
    · rw [if_neg hp2]
      have hr := floorLoop_spec SR (not_lt.1 hp1) (e + 2 - a) a e (Nat.le_refl a)
        (by omega) hae (Nat.le_refl e) (by omega)
        (fun k _ hk2 => absurd hk2 (by omega)) (fun k hk1 hk2 => absurd (by omega : e < e) (by omega))
      constructor
      · constructor
        · intro h
          rw [h] at hr
          omega
        · intro h
          omega
      · intro _
        exact hr

/-- Specification of `find_ceil` on a sorted prefix range of an uncorrupted
instance, with an explicitly resolved `end_pos`; the first pre-check of the
source reads index 0, so only `start_pos = 0` calls are characterised. -/
theorem find_ceil_spec {s : List Int} {t : Int} {e : Nat}
    (SR : SortedRange s 0 e) (he : e < s.length) (heNF : e < NF) :
    (find_ceil s false t 0 e = NF ↔ idx s e < t) ∧
    (find_ceil s false t 0 e ≠ NF →
      find_ceil s false t 0 e ≤ e ∧
      t ≤ idx s (find_ceil s false t 0 e) ∧
      (∀ k, find_ceil s false t 0 e < k → k ≤ e → t < idx s k) ∧
      (idx s (find_ceil s false t 0 e) ≠ t →
        ∀ k, k < find_ceil s false t 0 e → idx s k < t)) := by
  have h0 : ¬s.length = 0 := by omega
  have henf : ¬e = NF := by omega
  simp only [find_ceil, if_neg h0, if_neg henf, Bool.not_false, if_true]
  by_cases hp1 : idx s 0 > t
  · rw [if_pos hp1]
    have hne : idx s e ≥ idx s 0 := SR 0 e (Nat.le_refl 0) (by omega) (Nat.le_refl e)
    constructor
    · constructor
      · intro h
        have : (0 : Nat) = NF := h
        rw [NF_eq] at this
        omega
      · intro h
        omega
    · intro _
      refine ⟨by omega, le_of_lt hp1, ?_, ?_⟩
      · intro k hk1 hk2
        exact lt_of_lt_of_le hp1 (SR 0 k (Nat.le_refl 0) (by omega) hk2)
      · intro _ k hk2
        exact absurd hk2 (by omega)
  · rw [if_neg hp1]
    by_cases hp2 : idx s e < t
    · rw [if_pos hp2]
      exact ⟨⟨fun _ => hp2, fun _ => rfl⟩, fun h => absurd rfl h⟩
    · rw [if_neg hp2]
      have hr := ceilLoop_spec SR (not_lt.1 hp1) (not_lt.1 hp2) (e + 2 - 0) 0 e
        (Nat.le_refl 0) (by omega) (by omega) (Nat.le_refl e) (by omega)
        (fun k _ hk2 => absurd hk2 (by omega)) (fun k hk1 hk2 => absurd (by omega : e < e) (by omega))
      constructor
      · constructor
        · intro h
          rw [h] at hr
          omega
        · intro h
          omega
      · intro _
        exact ⟨hr.2.1, hr.2.2.1, hr.2.2.2.1, fun hne k hk2 => hr.2.2.2.2 hne k (by omega) hk2⟩

/-- Specification of the `find` binary-search loop on a sorted range. -/
theorem findLoop_spec {s : List Int} {t : Int} :
    ∀ fuel f l, SortedRange s f l → l < s.length → l < NF →
    l + 2 ≤ fuel + f →
    (findLoop s t fuel f l = NF → ∀ k, f ≤ k → k ≤ l → idx s k ≠ t) ∧
    (findLoop s t fuel f l ≠ NF →
      f ≤ findLoop s t fuel f l ∧ findLoop s t fuel f l ≤ l ∧
      idx s (findLoop s t fuel f l) = t) := by
  intro fuel
  induction fuel with
  | zero =>
    intro f l _ _ _ hfuel
    simp only [findLoop]
    exact ⟨fun _ k hk1 hk2 => absurd (by omega : f ≤ l) (by omega), fun h => absurd rfl h⟩
  | succ fuel ih =>
    intro f l SR hl hlNF hfuel
    simp only [findLoop]
    by_cases hfl : f ≤ l
    · have hfm : f ≤ (f + l) / 2 := by omega
      have hml : (f + l) / 2 ≤ l := by omega
      rw [if_pos hfl]
      by_cases h1 : idx s ((f + l) / 2) = t
      · rw [if_pos h1]
        exact ⟨fun h => absurd h (by omega), fun _ => ⟨hfm, hml, h1⟩⟩
      · rw [if_neg h1]
        by_cases h2 : idx s f = t
        · rw [if_pos h2]
          exact ⟨fun h => absurd h (by omega), fun _ => ⟨Nat.le_refl f, hfl, h2⟩⟩
        · rw [if_neg h2]
          by_cases h3 : idx s l = t
          · rw [if_pos h3]
            exact ⟨fun h => absurd h (by omega), fun _ => ⟨hfl, Nat.le_refl l, h3⟩⟩
          · rw [if_neg h3]
            by_cases h4 : idx s ((f + l) / 2) < t
            · rw [if_pos h4]
              have hr := ih ((f + l) / 2 + 1) l (SR.shrink (by omega) (Nat.le_refl l))
                hl hlNF (by omega)
              constructor
              · intro h k hk1 hk2
                by_cases hkm : (f + l) / 2 + 1 ≤ k
                · exact hr.1 h k hkm hk2
                · intro hkt
                  have : idx s k ≤ idx s ((f + l) / 2) := SR k ((f + l) / 2) hk1 (by omega) hml
                  rw [hkt] at this
                  omega
              · intro h
                have := hr.2 h
                exact ⟨by omega, this.2.1, this.2.2⟩
            · rw [if_neg h4]
              have hgt : t < idx s ((f + l) / 2) :=
                lt_of_le_of_ne (not_lt.1 h4) (fun h => h1 h.symm)
              by_cases h5 : (f + l) / 2 = 0
              · rw [if_pos h5]
                constructor
                · intro _ k hk1 hk2 hkt
                  have hf0 : f = 0 := by omega
                  have : idx s ((f + l) / 2) ≤ idx s k := by
                    rw [h5]
                    exact SR 0 k (by omega) (by omega) hk2
                  rw [hkt] at this
                  omega
                · intro h
                  exact absurd rfl h
              · rw [if_neg h5]
                have hr := ih f ((f + l) / 2 - 1) (SR.shrink (Nat.le_refl f) (by omega))
                  (by omega) (by omega) (by omega)
                constructor
                · intro h k hk1 hk2
                  by_cases hkm : k ≤ (f + l) / 2 - 1
                  · exact hr.1 h k hk1 hkm
                  · intro hkt
                    have : idx s ((f + l) / 2) ≤ idx s k := SR ((f + l) / 2) k hfm (by omega) hk2
                    rw [hkt] at this
                    omega
                · intro h
                  have := hr.2 h
                  exact ⟨this.1, by omega, this.2.2⟩
    · rw [if_neg hfl]
      exact ⟨fun _ k hk1 hk2 => absurd (by omega : f ≤ l) hfl, fun h => absurd rfl h⟩

/-- Method `find` with default bounds on a sorted, uncorrupted instance. -/
theorem find_default_spec {s : List Int} {t : Int}
    (hs : List.Sorted (· ≤ ·) s) (hw : s.length ≤ NF) :
    (find s false t 0 NF = NF → ∀ k, k < s.length → idx s k ≠ t) ∧
    (find s false t 0 NF ≠ NF →
      find s false t 0 NF < s.length ∧ idx s (find s false t 0 NF) = t) := by
  by_cases h0 : s.length = 0
  · simp only [find, if_pos h0]
    exact ⟨fun _ k hk => absurd hk (by omega), fun h => absurd rfl h⟩
  · simp only [find, if_neg h0, Bool.not_false, if_true, if_pos rfl]
    rw [wdec_eq_sub (by omega)]
    have hr := @findLoop_spec s t (s.length - 1 + 2 - 0) 0 (s.length - 1)
      (sortedRange_of_sorted hs (by omega)) (by omega) (by omega) (by omega)
    constructor
    · intro h k hk
      exact hr.1 h k (by omega) (by omega)
    · intro h
      have := hr.2 h
      exact ⟨by omega, this.2.2⟩

/-- A list equals its merge sort as soon as it is sorted and a permutation
of it is. -/
theorem eq_mergeSort_of_sorted_perm {r s : List Int}
    (hp : r.Perm s) (hr : List.Sorted (· ≤ ·) r) :
    r = s.mergeSort (fun a b => decide (a ≤ b)) :=
  List.eq_of_perm_of_sorted (hp.trans (List.mergeSort_perm s _).symm) hr
    (List.sorted_mergeSort' s)

/-- Correctness of the local fix of `repair`: starting from a sorted
storage, overwriting the single element at the tracked index and repairing
produces exactly the full re-sort of the overwritten content. -/
theorem repair_single_sorted {l : List Int} {i : Nat} {x : Int} {b : Bool}
    (hs : List.Sorted (· ≤ ·) l) (hi : i < l.length) (hw : l.length ≤ NF) :
    (repair { storage := l.set i x, last_modified := i, is_corrupted := true,
              flag_suspend_autorepair := b }).storage
      = (l.set i x).mergeSort (fun a b => decide (a ≤ b)) := by
  have hNF := NF_eq
  have hiNF : ¬i = NF := by omega
  have hslen : (l.set i x).length = l.length := List.length_set l i x
  have hxi : idx (l.set i x) i = x := by
    rw [idx_set]
    exact if_pos ⟨rfl, hi⟩
  have hsk : ∀ k, ¬k = i → idx (l.set i x) k = idx l k := by
    intro k hk
    rw [idx_set]
    exact if_neg (fun h => hk h.1.symm)
  have hul : (l.eraseIdx i).length = l.length - 1 := by
    rw [List.length_eraseIdx]
    simp [hi]
  have hsu := sorted_eraseIdx i hs
  simp only [repair, if_pos rfl, if_neg hiNF]
  by_cases hA : 0 < i ∧ idx (l.set i x) i < idx (l.set i x) (i - 1)
  · rw [if_pos hA]
    obtain ⟨hi0, hlt⟩ := hA
    have SR1 : SortedRange (l.set i x) 0 (i - 1) := by
      intro j k hj hjk hke
      rw [hsk j (by omega), hsk k (by omega)]
      rcases Nat.lt_or_ge j k with h | h
      · exact (sorted_iff_idx.1 hs) j k h (by omega)
      · have : j = k := by omega
        simp [this]
    have hspec := @find_ceil_spec (l.set i x) (idx (l.set i x) i) (i - 1) SR1
      (by omega) (by omega)
    have hpne : find_ceil (l.set i x) false (idx (l.set i x) i) 0 (i - 1) ≠ NF := by
      intro h
      have h2 := hspec.1.1 h
      omega
    obtain ⟨hple, hvle, hclause3, hclause4⟩ := hspec.2 hpne
    set p := find_ceil (l.set i x) false (idx (l.set i x) i) 0 (i - 1) with hp
    have hpi : ¬p = i := by omega
    simp only [single_shift_right, if_neg hpi, if_neg hiNF]
    have hpu : p ≤ (l.eraseIdx i).length := by omega
    have heq1 : (l.set i x).eraseIdx i = l.eraseIdx i := eraseIdx_set_same l i x
    rw [heq1]
    have hset : (((l.eraseIdx i).insertIdx p (idx (l.set i x) i)).set p
        (idx (l.set i x) i)) = (l.eraseIdx i).insertIdx p (idx (l.set i x) i) := by
      apply set_eq_of_idx
      · rw [List.length_insertIdx p _ hpu]
        omega
      · rw [idx_insertIdx _ hpu]
        simp
    rw [hset]
    apply eq_mergeSort_of_sorted_perm
    · have h1 : ((l.eraseIdx i).insertIdx p (idx (l.set i x) i)).Perm
          (idx (l.set i x) i :: l.eraseIdx i) := perm_insertIdx_cons _ hpu
      have h2 : (l.set i x).Perm (x :: l.eraseIdx i) := set_perm_cons_eraseIdx x hi
      rw [hxi] at h1 ⊢
      exact h1.trans h2.symm
    · apply sorted_insertIdx hsu hpu
      · by_cases hp0 : p = 0
        · exact Or.inl hp0
        · right
          have hpm : ¬p - 1 = i := by omega
          rw [idx_eraseIdx hi, if_pos (by omega : p - 1 < i), ← hsk (p - 1) hpm]
          by_cases hpv : idx (l.set i x) p = idx (l.set i x) i
          · rw [← hpv]
            exact SR1 (p - 1) p (by omega) (by omega) (by omega)
          · exact le_of_lt (hclause4 hpv (p - 1) (by omega))
      · right
        rw [idx_eraseIdx hi, if_pos (by omega : p < i), ← hsk p (by omega)]
        exact hvle
  · rw [if_neg hA]
    by_cases hB : i < wdec (l.set i x).length ∧
        idx (l.set i x) (i + 1) < idx (l.set i x) i
    · rw [if_pos hB]
      have hwd : wdec (l.set i x).length = l.length - 1 := by
        rw [hslen, wdec_eq_sub (by omega)]
      rw [hwd] at hB
      obtain ⟨hilen, hlt⟩ := hB
      have SR1 : SortedRange (l.set i x) (i + 1) (l.length - 1) := by
        intro j k hj hjk hke
        rw [hsk j (by omega), hsk k (by omega)]
        rcases Nat.lt_or_ge j k with h | h
        · exact (sorted_iff_idx.1 hs) j k h (by omega)
        · have : j = k := by omega
          simp [this]
      have hspec := @find_floor_spec (l.set i x) (idx (l.set i x) i) (i + 1)
        (l.length - 1) SR1 (by omega) (by omega) (by omega)
      have hpne : find_floor (l.set i x) false (idx (l.set i x) i) (i + 1)
          (l.length - 1) ≠ NF := by
        intro h
        have := hspec.1.1 h
        omega
      obtain ⟨hage, hple, hvle, hclause4, hclause5⟩ := hspec.2 hpne
      set p := find_floor (l.set i x) false (idx (l.set i x) i) (i + 1) (l.length - 1) with hp
      have hip : ¬i = p := by omega
      have hpNF : ¬p = NF := by omega
      rw [hwd]
      simp only [single_shift_left, if_neg hip, if_neg hpNF]
      have hpu : p ≤ (l.eraseIdx i).length := by omega
      have heq1 : (l.set i x).eraseIdx i = l.eraseIdx i := eraseIdx_set_same l i x
      rw [heq1]
      have hset : (((l.eraseIdx i).insertIdx p (idx (l.set i x) i)).set p
          (idx (l.set i x) i)) = (l.eraseIdx i).insertIdx p (idx (l.set i x) i) := by
        apply set_eq_of_idx
        · rw [List.length_insertIdx p _ hpu]
          omega
        · rw [idx_insertIdx _ hpu]
          simp
      rw [hset]
      apply eq_mergeSort_of_sorted_perm
      · have h1 : ((l.eraseIdx i).insertIdx p (idx (l.set i x) i)).Perm
            (idx (l.set i x) i :: l.eraseIdx i) := perm_insertIdx_cons _ hpu
        have h2 : (l.set i x).Perm (x :: l.eraseIdx i) := set_perm_cons_eraseIdx x hi
        rw [hxi] at h1 ⊢
        exact h1.trans h2.symm
      · apply sorted_insertIdx hsu hpu
        · right
          have hpm : ¬p - 1 < i := by omega
          rw [idx_eraseIdx hi, if_neg hpm]
          have hb1 : p - 1 + 1 = p := by omega
          rw [hb1, ← hsk p (by omega)]
          exact hvle
        · by_cases hpe : p = (l.eraseIdx i).length
          · exact Or.inl hpe
          · right
            rw [idx_eraseIdx hi, if_neg (by omega : ¬p < i), ← hsk (p + 1) (by omega)]
            by_cases hpv : idx (l.set i x) p = idx (l.set i x) i
            · rw [← hpv]
              exact SR1 p (p + 1) hage (by omega) (by omega)
            · exact le_of_lt (hclause5 hpv (p + 1) (by omega) (by omega))
    · rw [if_neg hB]
      have hwd : wdec (l.set i x).length = l.length - 1 := by
        rw [hslen, wdec_eq_sub (by omega)]
      rw [hwd] at hB
      have hsorted : List.Sorted (· ≤ ·) (l.set i x) := by
        apply sorted_of_adjacent
        intro k hk
        rw [hslen] at hk
        by_cases h1 : k + 1 = i
        · rcases not_and_or.1 hA with h | h
          · omega
          · have hge : idx (l.set i x) (i - 1) ≤ idx (l.set i x) i := not_lt.1 h
            have e2 : idx (l.set i x) (k + 1) = idx (l.set i x) i := by rw [h1]
            have e3 : idx (l.set i x) k = idx (l.set i x) (i - 1) := by
              have e4 : k = i - 1 := by omega
              rw [e4]
            omega
        · by_cases h2 : k = i
          · rcases not_and_or.1 hB with h | h
            · omega
            · have hge : idx (l.set i x) i ≤ idx (l.set i x) (i + 1) := not_lt.1 h
              have e2 : idx (l.set i x) k = idx (l.set i x) i := by rw [h2]
              have e3 : idx (l.set i x) (k + 1) = idx (l.set i x) (i + 1) := by rw [h2]
              omega
          · rw [hsk k h2, hsk (k + 1) h1]
            exact (sorted_iff_idx.1 hs) k (k + 1) (by omega) (by omega)
      exact (List.mergeSort_eq_self hsorted).symm

/-- Method `repair` is the identity on an uncorrupted instance. -/
theorem repair_not_corrupted {sv : sorted_vector} (h : sv.is_corrupted = false) :
    repair sv = sv := by
  simp [repair, h]

/-- Resolving the default `end_pos` of `find_ceil` by hand. -/
theorem find_ceil_default {s : List Int} (c : Bool) (t : Int)
    (h0 : ¬s.length = 0) (hw : s.length ≤ NF) :
    find_ceil s c t 0 NF = find_ceil s c t 0 (s.length - 1) := by
  have hNF := NF_eq
  simp only [find_ceil, if_neg h0]
  rw [if_pos trivial, wdec_eq_sub (by omega), if_neg (by omega : ¬s.length - 1 = NF)]

/-- Method `push` preserves the invariant and adds exactly one element. -/
theorem push_inv {sv : sorted_vector} {t : Int} (h : Inv sv)
    (hw : sv.storage.length ≤ NF) :
    Inv (push sv t) ∧ (push sv t).storage.length = sv.storage.length + 1 := by
  obtain ⟨hc, hsus, hsort⟩ := h
  have hNF := NF_eq
  simp only [push, hc, Bool.false_eq_true, false_and, if_false, Bool.not_false,
    Bool.true_eq_false, if_true]
  by_cases h0 : sv.storage.length = 0
  · rw [if_pos h0]
    have hnil : sv.storage = [] := List.length_eq_zero.1 h0
    refine ⟨⟨rfl, hsus, ?_⟩, ?_⟩
    · simp [hnil]
    · simp [hnil]
  · rw [if_neg h0]
    rw [find_ceil_default false t h0 hw]
    have SR := @sortedRange_of_sorted sv.storage 0 (sv.storage.length - 1) hsort (by omega)
    have hspec := @find_ceil_spec sv.storage t (sv.storage.length - 1) SR (by omega) (by omega)
    by_cases hpos : find_ceil sv.storage false t 0 (sv.storage.length - 1) = NF
    · rw [if_pos hpos]
      have hlast : idx sv.storage (sv.storage.length - 1) < t := hspec.1.1 hpos
      refine ⟨⟨rfl, hsus, ?_⟩, by simp⟩
      rw [← List.insertIdx_length_self sv.storage t]
      apply sorted_insertIdx hsort (Nat.le_refl _)
      · right
        exact le_of_lt hlast
      · left
        rfl
    · rw [if_neg hpos]
      obtain ⟨hple, htle, hclause3, hclause4⟩ := hspec.2 hpos
      set p := find_ceil sv.storage false t 0 (sv.storage.length - 1) with hpdef
      by_cases heq : idx sv.storage p = t
      · rw [if_pos heq]
        refine ⟨⟨rfl, hsus, ?_⟩, ?_⟩
        · apply sorted_insertIdx hsort (by omega)
          · right
            have e1 : p + 1 - 1 = p := by omega
            rw [e1, heq]
          · by_cases hpe : p + 1 = sv.storage.length
            · exact Or.inl hpe
            · right
              exact le_of_lt (hclause3 (p + 1) (by omega) (by omega))
        · simp only [sorted_vector.mk.injEq]
          rw [List.length_insertIdx _ _ (by omega)]
      · rw [if_neg heq]
        refine ⟨⟨rfl, hsus, ?_⟩, ?_⟩
        · apply sorted_insertIdx hsort (by omega)
          · by_cases hp0 : p = 0
            · exact Or.inl hp0
            · right
              exact le_of_lt (hclause4 heq (p - 1) (by omega))
          · right
            exact htle
        · simp only [sorted_vector.mk.injEq]
          rw [List.length_insertIdx _ _ (by omega)]

/-- Method `replace` preserves the invariant and adds at most one element. -/
theorem replace_inv {sv : sorted_vector} {t : Int} (h : Inv sv)
    (hw : sv.storage.length ≤ NF) :
    Inv (replace sv t) ∧ sv.storage.length ≤ (replace sv t).storage.length ∧
      (replace sv t).storage.length ≤ sv.storage.length + 1 := by
  obtain ⟨hc, hsus, hsort⟩ := h
  simp only [replace, hc, Bool.false_eq_true, false_and, if_false]
  have hfd := @find_default_spec sv.storage t hsort hw
  by_cases hpos : find sv.storage false t 0 NF ≠ NF
  · rw [if_pos hpos]
    obtain ⟨hlt, heq⟩ := hfd.2 hpos
    rw [set_eq_of_idx hlt heq]
    exact ⟨⟨rfl, hsus, hsort⟩, Nat.le_refl _, Nat.le_succ _⟩
  · rw [if_neg hpos]
    have := @push_inv sv t ⟨hc, hsus, hsort⟩ hw
    exact ⟨this.1, by omega, by omega⟩

/-- Method `merge` preserves the invariant (it re-establishes it by the full sort
inside `repair`) and adds exactly the merged elements. -/
theorem merge_inv {sv : sorted_vector} {v : List Int}
    (hsus : sv.flag_suspend_autorepair = false) :
    Inv (merge sv v) ∧
      (merge sv v).storage.length = sv.storage.length + v.length := by
  simp only [merge, repair, if_pos rfl, sorted_vector.sort]
  refine ⟨⟨rfl, hsus, List.sorted_mergeSort' _⟩, ?_⟩
  have hl : ((sv.storage ++ v).mergeSort (fun a b => decide (a ≤ b))).length
      = sv.storage.length + v.length := by
    rw [(List.mergeSort_perm (sv.storage ++ v) _).length_eq, List.length_append]
  exact hl

/-- One call preserves the invariant, growing by at most `opGrowth`. -/
theorem runOp_inv {sv : sorted_vector} (h : Inv sv)
    (hw : sv.storage.length ≤ NF) (op : Op) :
    Inv (runOp sv op) ∧
      (runOp sv op).storage.length ≤ sv.storage.length + opGrowth op := by
  cases op with
  | push t =>
    have := @push_inv sv t h hw
    exact ⟨this.1, by simp [runOp, opGrowth]; omega⟩
  | replace t =>
    have := @replace_inv sv t h hw
    exact ⟨this.1, by simp [runOp, opGrowth]; omega⟩
  | merge v =>
    have := @merge_inv sv v h.2.1
    exact ⟨this.1, by simp [runOp, opGrowth]; omega⟩

/-- The invariant along a whole call sequence whose total growth fits in a
`size_t`. -/
theorem run_inv : ∀ (ops : List Op) (sv : sorted_vector), Inv sv →
    sv.storage.length + opsGrowth ops ≤ NF →
    Inv (run sv ops) ∧
      (run sv ops).storage.length ≤ sv.storage.length + opsGrowth ops := by
  intro ops
  induction ops with
  | nil =>
    intro sv h _
    exact ⟨h, by simp [run, opsGrowth]⟩
  | cons op rest ih =>
    intro sv h hbound
    have hg : opsGrowth (op :: rest) = opGrowth op + opsGrowth rest := by
      simp [opsGrowth]
    have hw : sv.storage.length ≤ NF := by omega
    have h1 := runOp_inv h hw op
    have h2 := ih (runOp sv op) h1.1 (by omega)
    have hrw : run sv (op :: rest) = run (runOp sv op) rest := rfl
    rw [hrw]
    exact ⟨h2.1, by omega⟩

/-- Resolving the default `end_pos` of `find_floor` by hand. -/
theorem find_floor_default {s : List Int} (c : Bool) (t : Int) (a : Nat)
    (h0 : ¬s.length = 0) (hw : s.length ≤ NF) :
    find_floor s c t a NF = find_floor s c t a (s.length - 1) := by
  have hNF := NF_eq
  simp only [find_floor, if_neg h0]
  rw [if_pos trivial, wdec_eq_sub (by omega), if_neg (by omega : ¬s.length - 1 = NF)]

end Lemmas

/-- Claim C1: "for every element value t and every reachable container state,
`find(t)` returns an index holding t whenever some element of the searched
range equals t."  This fails on the code: on the reachable single-index-dirty
state with storage `[5]` (obtained by one non-const `operator[]` access on a
sorted container), `find(5)` over the default full range returns the
not-found sentinel even though the element at index 0 equals 5, because the
corrupted branch delegates to `find_linear`, whose scan stops before testing
the element at `end_pos`. -/
theorem claim_C1_dirty_find_misses_match :
    (subscript_mut sv_single 0).is_corrupted = true ∧
    (subscript_mut sv_single 0).last_modified = 0 ∧
    (subscript_mut sv_single 0).storage = [5] ∧
    idx [5] 0 = 5 ∧
    find [5] true 5 0 NF = NF := by decide

/-- Claim C2: "in a corrupted state every const search, including
`find_floor` and `find_ceil`, falls back to a linear scan rather than
returning an unconditional not-found sentinel."  This fails on the code:
in the reachable corrupted state with storage `[5]`, `find_floor(5)` and
`find_ceil(5)` both return the sentinel unconditionally (source lines
1052-1054 and 1096-1098), although index 0 holds an element that is both
`<= 5` and `>= 5`, so a reference linear scan would return 0 for either
query. -/
theorem claim_C2_floor_ceil_no_linear_fallback :
    (subscript_mut sv_single 0).is_corrupted = true ∧
    find_floor [5] true 5 0 NF = NF ∧ idx [5] 0 ≤ 5 ∧
    find_ceil [5] true 5 0 NF = NF ∧ 5 ≤ idx [5] 0 := by decide

/-- Claim C3, counterexample: on the sorted container `[2, 2]` with t = 2,
`find_floor` returns 0 although index 1 also satisfies `storage[1] <= t`
(so it is not the largest such index), and `find_ceil` returns 1 although
index 0 also satisfies `storage[0] >= t` (so it is not the smallest such
index). -/
theorem claim_C3_counterexample :
    find_floor [2, 2] false 2 0 NF = 0 ∧ idx [2, 2] 1 ≤ 2 ∧ (0 : Nat) < 1 ∧
    find_ceil [2, 2] false 2 0 NF = 1 ∧ 2 ≤ idx [2, 2] 0 := by decide

/-- Claim C3, amended: for every sorted non-corrupted container searched
over the full default range, `find_floor(t)` returns the sentinel iff every
element is greater than t; otherwise, if some element equals t it returns
the smallest index whose value equals t, and if no element equals t it
returns the largest index whose value is at most t.  `find_ceil(t)` returns
the sentinel iff every element is less than t; otherwise, if some element
equals t it returns the largest index whose value equals t, and if no
element equals t it returns the smallest index whose value is at least t. -/
theorem claim_C3_floor_ceil_boundary_amended {s : List Int} {t : Int}
    (hs : List.Sorted (· ≤ ·) s) (hw : s.length ≤ NF) :
    (find_floor s false t 0 NF = NF ↔ ∀ k, k < s.length → t < idx s k) ∧
    (find_floor s false t 0 NF ≠ NF →
      find_floor s false t 0 NF < s.length ∧
      idx s (find_floor s false t 0 NF) ≤ t ∧
      ((∃ k, k < s.length ∧ idx s k = t) →
        idx s (find_floor s false t 0 NF) = t ∧
        ∀ k, k < find_floor s false t 0 NF → idx s k ≠ t) ∧
      ((∀ k, k < s.length → idx s k ≠ t) →
        ∀ k, k < s.length → idx s k ≤ t → k ≤ find_floor s false t 0 NF)) ∧
    (find_ceil s false t 0 NF = NF ↔ ∀ k, k < s.length → idx s k < t) ∧
    (find_ceil s false t 0 NF ≠ NF →
      find_ceil s false t 0 NF < s.length ∧
      t ≤ idx s (find_ceil s false t 0 NF) ∧
      ((∃ k, k < s.length ∧ idx s k = t) →
        idx s (find_ceil s false t 0 NF) = t ∧
        ∀ k, find_ceil s false t 0 NF < k → k < s.length → idx s k ≠ t) ∧
      ((∀ k, k < s.length → idx s k ≠ t) →
        ∀ k, k < s.length → t ≤ idx s k → find_ceil s false t 0 NF ≤ k)) := by
  by_cases h0 : s.length = 0
  · have hfl : find_floor s false t 0 NF = NF := by simp [find_floor, h0]
    have hcl : find_ceil s false t 0 NF = NF := by simp [find_ceil, h0]
    rw [hfl, hcl]
    refine ⟨⟨fun _ k hk => absurd hk (by omega), fun _ => rfl⟩, fun h => absurd rfl h,
      ⟨fun _ k hk => absurd hk (by omega), fun _ => rfl⟩, fun h => absurd rfl h⟩
  · rw [find_floor_default false t 0 h0 hw, find_ceil_default false t h0 hw]
    have SR := @sortedRange_of_sorted s 0 (s.length - 1) hs (by omega)
    have hfe := @find_floor_spec s t 0 (s.length - 1) SR (by omega) (by omega) (by omega)
    have hce := @find_ceil_spec s t (s.length - 1) SR (by omega) (by omega)
    constructor
    · rw [hfe.1]
      constructor
      · intro h k hk
        exact lt_of_lt_of_le h (SR 0 k (by omega) (by omega) (by omega))
      · intro h
        exact h 0 (by omega)
    constructor
    · intro hne
      obtain ⟨hge0, hle, hvle, hcl4, hcl5⟩ := hfe.2 hne
      refine ⟨by omega, hvle, ?_, ?_⟩
      · rintro ⟨k, hk, hke⟩
        have heq : idx s (find_floor s false t 0 (s.length - 1)) = t := by
          by_contra hneq
          rcases Nat.lt_trichotomy k (find_floor s false t 0 (s.length - 1)) with h | h | h
          · have := hcl4 k (by omega) h
            omega
          · rw [h] at hke
            exact hneq hke
          · have := hcl5 hneq k h (by omega)
            omega
        refine ⟨heq, ?_⟩
        intro k2 hk2 hk2e
        have := hcl4 k2 (by omega) hk2
        omega
      · intro habs k hk hkle
        by_contra hgt
        have hne2 : idx s (find_floor s false t 0 (s.length - 1)) ≠ t :=
          habs _ (by omega)
        have := hcl5 hne2 k (by omega) (by omega)
        omega
    constructor
    · rw [hce.1]
      constructor
      · intro h k hk
        exact lt_of_le_of_lt (SR k (s.length - 1) (by omega) (by omega) (by omega)) h
      · intro h
        exact h (s.length - 1) (by omega)
    · intro hne
      obtain ⟨hle, hvle, hcl3, hcl4⟩ := hce.2 hne
      refine ⟨by omega, hvle, ?_, ?_⟩
      · rintro ⟨k, hk, hke⟩
        have heq : idx s (find_ceil s false t 0 (s.length - 1)) = t := by
          by_contra hneq
          rcases Nat.lt_trichotomy k (find_ceil s false t 0 (s.length - 1)) with h | h | h
          · have := hcl4 hneq k h
            omega
          · rw [h] at hke
            exact hneq hke
          · have := hcl3 k h (by omega)
            omega
        refine ⟨heq, ?_⟩
        intro k2 hk2 hk2l hk2e
        have := hcl3 k2 hk2 (by omega)
        omega
      · intro habs k hk hkge
        by_contra hgt
        have hne2 : idx s (find_ceil s false t 0 (s.length - 1)) ≠ t :=
          habs _ (by omega)
        have := hcl4 hne2 k (by omega)
        omega

/-- Witness for the amended claim C3 at the sorted container `[1, 2, 2]`
with t = 2: floor lands on the leftmost 2 (index 1) and ceil on the
rightmost 2 (index 2). -/
theorem claim_C3_floor_ceil_boundary_amended_witness :
    find_floor [1, 2, 2] false 2 0 NF = 1 ∧ find_ceil [1, 2, 2] false 2 0 NF = 2 ∧
    (find_floor [1, 2, 2] false 2 0 NF = NF ↔
      ∀ k, k < ([1, 2, 2] : List Int).length → 2 < idx [1, 2, 2] k) :=
  ⟨by decide, by decide,
    (claim_C3_floor_ceil_boundary_amended (by decide) (by decide)).1⟩

/-- Claim C4: mutating exactly one element of a sorted container through
the non-const `operator[]` and then calling `repair()` yields exactly the
full re-sort of the mutated content.  The first conjunct covers the
autorepair-enabled access, on which the single dirty index is tracked and
`repair` performs the local shift; the second covers the access after
`suspend_autorepair()` (which the claim text describes), on which the
tracker is degraded to unknown and `repair` falls back to the full sort.
Both agree with the full re-sort. -/
theorem claim_C4_single_mutation_repair {l : List Int} {i : Nat} {x : Int}
    (hs : List.Sorted (· ≤ ·) l) (hi : i < l.length) (hw : l.length ≤ NF) :
    (repair (subscript_write (mkSorted l) i x)).storage
        = (l.set i x).mergeSort (fun a b => decide (a ≤ b)) ∧
    (repair (subscript_write (suspend_autorepair (mkSorted l)) i x)).storage
        = (l.set i x).mergeSort (fun a b => decide (a ≤ b)) := by
  constructor
  · have h1 : subscript_write (mkSorted l) i x =
        { storage := l.set i x, last_modified := i, is_corrupted := true,
          flag_suspend_autorepair := false } := by
      simp [subscript_write, subscript_mut, mkSorted, repair]
    rw [h1]
    exact repair_single_sorted hs hi hw
  · have h2 : subscript_write (suspend_autorepair (mkSorted l)) i x =
        { storage := l.set i x, last_modified := NF, is_corrupted := true,
          flag_suspend_autorepair := true } := by
      simp [subscript_write, subscript_mut, suspend_autorepair, mkSorted]
    rw [h2]
    simp [repair, sorted_vector.sort]

/-- Witness for claim C4: spec scenario 2, `[1,3,5,7,9]` with index 2
overwritten by 20. -/
theorem claim_C4_witness :
    (repair (subscript_write (mkSorted [1, 3, 5, 7, 9]) 2 20)).storage
        = (([1, 3, 5, 7, 9] : List Int).set 2 20).mergeSort (fun a b => decide (a ≤ b)) ∧
    (repair (subscript_write (suspend_autorepair (mkSorted [1, 3, 5, 7, 9])) 2 20)).storage
        = (([1, 3, 5, 7, 9] : List Int).set 2 20).mergeSort (fun a b => decide (a ≤ b)) :=
  claim_C4_single_mutation_repair (by decide) (by decide) (by decide)

/-- Claim C5: starting from a freshly constructed container, any sequence
of `push`, `replace` and `merge` calls followed by a final `repair()`
leaves the stored sequence non-decreasing in every adjacent pair.  The
growth hypothesis only rules out sequences inserting more elements than a
`size_t` can count. -/
theorem claim_C5_sorted_after_run_repair (ops : List Op)
    (hg : opsGrowth ops ≤ NF) :
    ∀ k, k + 1 < (repair (run sorted_vector.init ops)).storage.length →
      idx (repair (run sorted_vector.init ops)).storage k ≤
        idx (repair (run sorted_vector.init ops)).storage (k + 1) := by
  have hInit : Inv sorted_vector.init := ⟨rfl, rfl, by simp [sorted_vector.init]⟩
  have h := run_inv ops sorted_vector.init hInit
    (by simpa [sorted_vector.init] using hg)
  have hrep : repair (run sorted_vector.init ops) = run sorted_vector.init ops :=
    repair_not_corrupted h.1.1
  rw [hrep]
  intro k hk
  exact (sorted_iff_idx.1 h.1.2.2) k (k + 1) (by omega) hk

/-- Witness for claim C5: three pushes and a replace, checked on the first
adjacent pair of the final storage. -/
theorem claim_C5_witness :
    opsGrowth [Op.push 3, Op.push 1, Op.replace 2] ≤ NF ∧
    idx (repair (run sorted_vector.init [Op.push 3, Op.push 1, Op.replace 2])).storage 0 ≤
      idx (repair (run sorted_vector.init [Op.push 3, Op.push 1, Op.replace 2])).storage 1 :=
  ⟨by decide,
    claim_C5_sorted_after_run_repair [Op.push 3, Op.push 1, Op.replace 2]
      (by decide) 0 (by decide)⟩

/-- Claim C6: "`find_linear(t, start_pos, end_pos)` finds t iff some
element of the inclusive range `[start_pos, end_pos]`, including the
element at `end_pos` itself, equals t."  This fails on the code: with
storage `[5]`, `start_pos = 0` and `end_pos = 0` (a valid range with
`start_pos <= end_pos < size`), the element at `end_pos` equals 5, yet the
scan `while (start_pos != end_pos)` exits before testing it and the
sentinel is returned; `find_linear_first` shares the body, and
`find_linear_last` symmetrically never tests `start_pos`. -/
theorem claim_C6_find_linear_excludes_end :
    find_linear [5] 5 0 0 = NF ∧ idx [5] 0 = 5 ∧
    find_linear_first [5] 5 0 0 = NF ∧
    find_linear_last [5] 5 0 0 = NF := by decide

/-- Claim C7: "every non-const element access, including the checked
accessor `at(pos)`, transitions a Sorted state to Dirty with the accessed
index recorded."  This fails on the code: the non-const `at` (lines
397-402) only forwards to `_storage.at(pos)` and leaves all bookkeeping
untouched, so after `at(0)` on a sorted container the instance still
reports not corrupted and tracks no index, while the same access through
`operator[]` does record it. -/
theorem claim_C7_at_does_not_mark_dirty :
    at_mut sv_pair 0 = sv_pair ∧
    (at_mut sv_pair 0).is_corrupted = false ∧
    (at_mut sv_pair 0).last_modified = NF ∧
    (subscript_mut sv_pair 0).is_corrupted = true ∧
    (subscript_mut sv_pair 0).last_modified = 0 := by decide

/-- Claim C8: on a sorted container with t absent, whenever `find_floor(t)`
and `find_ceil(t)` over the full default range both return valid indices,
the ceil index is the successor of the floor index. -/
theorem claim_C8_floor_succ_eq_ceil {s : List Int} {t : Int}
    (hs : List.Sorted (· ≤ ·) s) (hw : s.length ≤ NF)
    (habs : ∀ k, k < s.length → idx s k ≠ t)
    (hfl : find_floor s false t 0 NF ≠ NF)
    (hce : find_ceil s false t 0 NF ≠ NF) :
    find_floor s false t 0 NF + 1 = find_ceil s false t 0 NF := by
  by_cases h0 : s.length = 0
  · exact absurd (by simp [find_floor, h0]) hfl
  · rw [find_floor_default false t 0 h0 hw] at hfl ⊢
    rw [find_ceil_default false t h0 hw] at hce ⊢
    have SR := @sortedRange_of_sorted s 0 (s.length - 1) hs (by omega)
    have hfe := @find_floor_spec s t 0 (s.length - 1) SR (by omega) (by omega) (by omega)
    have hcespec := @find_ceil_spec s t (s.length - 1) SR (by omega) (by omega)
    obtain ⟨hge0, hflle, hfvle, hfcl4, hfcl5⟩ := hfe.2 hfl
    obtain ⟨hcele, hcvle, hccl3, hccl4⟩ := hcespec.2 hce
    have hflne : idx s (find_floor s false t 0 (s.length - 1)) ≠ t :=
      habs _ (by omega)
    have hcene : idx s (find_ceil s false t 0 (s.length - 1)) ≠ t :=
      habs _ (by omega)
    have h1 : ¬find_ceil s false t 0 (s.length - 1) <
        find_floor s false t 0 (s.length - 1) := by
      intro h
      have := hfcl4 (find_ceil s false t 0 (s.length - 1)) (by omega) h
      omega
    have h2 : ¬find_ceil s false t 0 (s.length - 1) =
        find_floor s false t 0 (s.length - 1) := by
      intro h
      rw [h] at hcvle
      omega
    have h3 : ¬find_floor s false t 0 (s.length - 1) + 1 <
        find_ceil s false t 0 (s.length - 1) := by
      intro h
      have ha := hccl4 hcene (find_floor s false t 0 (s.length - 1) + 1) h
      have hb := hfcl5 hflne (find_floor s false t 0 (s.length - 1) + 1)
        (by omega) (by omega)
      omega
    omega

/-- Witness for claim C8: `[1, 3]` with the absent value 2; the floor is
index 0 and the ceil index 1. -/
theorem claim_C8_witness :
    (∀ k, k < ([1, 3] : List Int).length → idx [1, 3] k ≠ 2) ∧
    find_floor [1, 3] false 2 0 NF + 1 = find_ceil [1, 3] false 2 0 NF :=
  ⟨by decide,
    claim_C8_floor_succ_eq_ceil (by decide) (by decide) (by decide)
      (by decide) (by decide)⟩

/-- Claim C9: "on an empty container, every search method returns the
not-found sentinel rather than reading any element."  This fails on the
code: `find_next` and `find_prev` have no emptiness guard, so on an empty
container `find_next(0)` reads `_storage[0]` and `_storage[1]` (out of
range, undefined behaviour in C++; in this total embedding both reads give
the default element, which compares equal) and returns index 1 instead of
the sentinel, and `find_prev(1, 0)` likewise returns 0. -/
theorem claim_C9_find_next_on_empty :
    find_next [] false 0 NF = 1 ∧ find_prev [] false 1 0 = 0 ∧
    (1 : Nat) ≠ NF ∧ (0 : Nat) ≠ NF := by decide

/-- Claim C10: "on a sorted non-empty container the equal-run walk of
`find_first` only reads indices within bounds."  This fails on the code:
with storage `[2]` and t = 2 over the full range, `find` returns position
0, and the walk condition `t == _storage[pos]` is evaluated again after
`pos--` wraps below zero, reading index `2^64 - 1`, far beyond the last
valid index.  `firstWalkReads` lists the indices the walk reads, with the
same arguments `find_first` passes to the walk. -/
theorem claim_C10_find_first_walk_out_of_bounds :
    find [2] false 2 0 (wdec ([2] : List Int).length) = 0 ∧
    firstWalkReads [2] 2 0 (0 + 2) 0 = [0, NF] ∧
    ([2] : List Int).length ≤ NF := by decide

end cim
